import Mathlib

/-!
Verification of the iryfful in-memory search library against its
specification.  The definitions below are shallow embeddings of the Rust
source: document iterators become Lean lists consumed from the front,
mutable loops become structural or well-founded recursions, and `u32`
values become `Nat` (with explicit two's-complement arithmetic where the
source casts between machine integer types).
-/

set_option linter.unusedVariables false

namespace Iryfful

/-- `u32::MAX`, the initial value of `min_doc_id` in the conjunction's
init scan (src/search/mod.rs). -/
def UMAX : Nat := 4294967295

/-! ## DocIterator::advance (src/search/mod.rs)

A doc iterator is modelled as a `List α` together with a projection
`getId : α → Nat` (the `DocItem::get_doc_id` method).  `advanceL` consumes
items until the first item whose id is `≥` the target: it returns the pair
`(matched-flag, item)` together with the not-yet-consumed remainder, or
`none` with an empty remainder on exhaustion. -/
def advanceL {α : Type} (getId : α → Nat) : List α → Nat → Option (Bool × α) × List α
  | [], _ => (none, [])
  | x :: xs, t =>
    if getId x = t then (some (true, x), xs)
    else if getId x > t then (some (false, x), xs)
    else advanceL getId xs t

/-! ## MatchingDocIterator::next (src/search/mod.rs)

The conjunction over N doc iterators.  A slot is a pair
`(current item, remaining items)`; `avail` is the multiset of items the
slot can still contribute (current item included). -/

/-- The init scan of `MatchingDocIterator::next`: pull one item from each
iterator, returning `none` as soon as one is exhausted, and threading
`max_doc_id` / `min_doc_id` exactly as the source does (`min` is only
updated by items that did not increase `max`). -/
def pullHeads {α : Type} (getId : α → Nat) :
    List (List α) → Nat → Nat → Option (List (α × List α) × Nat × Nat)
  | [], mx, mn => some ([], mx, mn)
  | [] :: _, _, _ => none
  | (x :: xs) :: its, mx, mn =>
    let mx' := if getId x > mx then getId x else mx
    let mn' := if getId x > mx then mn else if getId x < mn then getId x else mn
    match pullHeads getId its mx' mn' with
    | none => none
    | some (slots, m, n) => some ((x, xs) :: slots, m, n)

/-- Total number of not-yet-consumed items across a list of slots. -/
def slotsLen {α : Type} (slots : List (α × List α)) : Nat :=
  (slots.map (fun s => s.2.length)).sum

theorem advanceL_some_length {α : Type} (getId : α → Nat) (l : List α) (t : Nat)
    {r : Bool × α} {rest : List α} (h : advanceL getId l t = (some r, rest)) :
    rest.length < l.length := by
  induction l with
  | nil => simp [advanceL] at h
  | cons x xs ih =>
    simp only [advanceL] at h
    by_cases h1 : getId x = t
    · rw [if_pos h1] at h
      have : xs = rest := (Prod.mk.injEq _ _ _ _ ▸ h).2
      simp [← this]
    · rw [if_neg h1] at h
      by_cases h2 : getId x > t
      · rw [if_pos h2] at h
        have : xs = rest := (Prod.mk.injEq _ _ _ _ ▸ h).2
        simp [← this]
      · rw [if_neg h2] at h
        have := ih h
        simp
        omega

/-- The `'matching_loop` of `MatchingDocIterator::next`.  `done` holds the
slots already examined in the current pass (their current item's id equals
`mx`), `pending` the slots still to examine.  On a non-matching advance the
pass restarts from the first slot with the larger `mx`. -/
def scanLoop {α : Type} (getId : α → Nat) :
    (done pending : List (α × List α)) → Nat → Option ((Nat × List α) × List (List α))
  | done, [], mx => some ((mx, done.map Prod.fst), done.map Prod.snd)
  | done, (cur, it) :: pending, mx =>
    if getId cur = mx then
      scanLoop getId (done ++ [(cur, it)]) pending mx
    else
      match hadv : advanceL getId it mx with
      | (none, _) => none
      | (some (found, doc), it') =>
        if found then
          scanLoop getId (done ++ [(doc, it')]) pending (getId doc)
        else
          scanLoop getId [] (done ++ (doc, it') :: pending) (getId doc)
  termination_by done pending mx => (slotsLen done + slotsLen pending, pending.length)
  decreasing_by
  · simp [slotsLen]
    omega
  · have := advanceL_some_length getId it mx hadv
    simp [slotsLen]
    omega
  · have := advanceL_some_length getId it mx hadv
    simp [slotsLen]
    omega

/-- One call of `MatchingDocIterator::next`: the init scan, the
`min == max` fast path, then the matching loop.  Returns the emitted
`(doc_id, items)` pair together with the iterator states after the call. -/
def conjNext {α : Type} (getId : α → Nat) (docs : List (List α)) :
    Option ((Nat × List α) × List (List α)) :=
  match pullHeads getId docs 0 UMAX with
  | none => none
  | some (slots, mx, mn) =>
    if mn = mx then some ((mx, slots.map Prod.fst), slots.map Prod.snd)
    else scanLoop getId [] slots mx

/-- Repeated `next()` calls on the conjunction, collecting the emitted
pairs; `fuel` bounds the number of calls. -/
def conjStreamF {α : Type} (getId : α → Nat) : Nat → List (List α) → List (Nat × List α)
  | 0, _ => []
  | fuel + 1, docs =>
    match conjNext getId docs with
    | none => []
    | some (e, docs') => e :: conjStreamF getId fuel docs'

/-- Total number of items across the input iterators. -/
def listsLen {α : Type} (docs : List (List α)) : Nat :=
  (docs.map List.length).sum

/-- The full emission sequence of a conjunction.  For a non-empty family
of iterators every successful `next()` consumes at least one item, so
`listsLen docs + 1` calls always reach exhaustion. -/
def conjStream {α : Type} (getId : α → Nat) (docs : List (List α)) : List (Nat × List α) :=
  conjStreamF getId (listsLen docs + 1) docs

/-! ## Tokenizer (src/tokenizer/mod.rs, filter.rs, whitespace_tokenizer.rs) -/

/-- A token: a surface string with its 1-based position in the field. -/
structure Token where
  position : Nat
  token : String
  deriving DecidableEq, Repr

/-- The built-in filter set; `LowerCase` folds the token string to lower
case.  (Rust's `to_lowercase` is Unicode-aware; `String.toLower` agrees
with it on the ASCII inputs used here.) -/
inductive TokenFilter where
  | LowerCase
  deriving DecidableEq, Repr

/-- `Filter::apply` for `TokenFilter`. -/
def applyFilter (f : TokenFilter) (t : Token) : Token :=
  match f with
  | TokenFilter.LowerCase => { t with token := t.token.toLower }

/-- The `for filter in self.get_filters()` loop of `Tokenizer::tokenize`:
each registered filter mutates the token in place, in registration order. -/
def applyFilters (filters : List TokenFilter) (t : Token) : Token :=
  filters.foldl (fun tok f => applyFilter f tok) t

/-- The body of `Tokenizer::tokenize`: number the splits starting from
`pos` and run the filter chain on each emitted token. -/
def tokenizeFrom (filters : List TokenFilter) (pos : Nat) : List String → List Token
  | [] => []
  | part :: rest =>
    applyFilters filters { position := pos, token := part } :: tokenizeFrom filters (pos + 1) rest

/-- `Tokenizer::tokenize` applied to the output of `splits`: positions
start at 1. -/
def tokenizeParts (filters : List TokenFilter) (parts : List String) : List Token :=
  tokenizeFrom filters 1 parts

/-- `str::split_whitespace` on the characters of the input: maximal
whitespace runs separate the pieces, leading/trailing whitespace is
skipped.  (`Char.isWhitespace` agrees with Rust's `char::is_whitespace`
on the ASCII whitespace used here.) -/
def splitWSAux : List Char → List Char → List String
  | [], acc => if acc.isEmpty then [] else [String.mk acc.reverse]
  | c :: cs, acc =>
    if c.isWhitespace then
      if acc.isEmpty then splitWSAux cs [] else String.mk acc.reverse :: splitWSAux cs []
    else splitWSAux cs (c :: acc)

/-- `WhiteSpaceTokenizer::splits`. -/
def splitWhitespace (s : String) : List String :=
  splitWSAux s.data []

/-- `WhiteSpaceTokenizer` state: its registered filter list. -/
structure WSTokenizer where
  filters : List TokenFilter
  deriving DecidableEq, Repr

/-- `WhiteSpaceTokenizer`'s `tokenize`: the default trait method over its
whitespace `splits`. -/
def wsTokenize (tk : WSTokenizer) (input : String) : List Token :=
  tokenizeParts tk.filters (splitWhitespace input)

/-! ## Posting lists (src/index/posting_lists.rs) -/

/-- A per-document entry of a posting: doc id, term frequency, and the
start offset of its positions in the flat positions buffer. -/
structure DocEntry where
  doc_id : Nat
  freqs : Nat
  positions_offset : Nat
  deriving DecidableEq, Repr

/-- `PostingImpl`: the document entries plus the flat positions buffer. -/
structure PostingImpl where
  docs : List DocEntry
  positions : List Nat
  deriving DecidableEq, Repr

/-- `posting_lists::new`. -/
def newPosting : PostingImpl := { docs := [], positions := [] }

/-- Increment the `freqs` of the last entry (`docs.last_mut()` in the
source; the source `expect`s the list to be non-empty, which `add_token`
guarantees). -/
def bumpLast : List DocEntry → List DocEntry
  | [] => []
  | [e] => [{ e with freqs := e.freqs + 1 }]
  | e :: rest => e :: bumpLast rest

/-- `PostingImpl::add_token`: append a fresh entry when the doc id differs
from the last entry's (or the posting is empty), then increment the last
entry's frequency and push the position. -/
def addToken (p : PostingImpl) (doc_id position : Nat) : PostingImpl :=
  let create :=
    match p.docs.getLast? with
    | none => true
    | some e => e.doc_id ≠ doc_id
  let docs1 :=
    if create then p.docs ++ [{ doc_id := doc_id, freqs := 0, positions_offset := p.positions.length }]
    else p.docs
  { docs := bumpLast docs1, positions := p.positions ++ [position] }

/-- `PostingImpl::iter_docs`: the doc ids, in entry order. -/
def iterDocs (p : PostingImpl) : List Nat :=
  p.docs.map (fun e => e.doc_id)

/-- The `(doc_id, positions slice)` item yielded by `iter_docs_pos`. -/
structure DocIdAndPosItem where
  doc_id : Nat
  positions : List Nat
  deriving DecidableEq, Repr

/-- The positions slice of one entry:
`positions[offset .. offset + freqs]`. -/
def entrySlice (p : PostingImpl) (e : DocEntry) : List Nat :=
  (p.positions.drop e.positions_offset).take e.freqs

/-- `PostingImpl::iter_docs_pos`. -/
def iterDocsPos (p : PostingImpl) : List DocIdAndPosItem :=
  p.docs.map (fun e => { doc_id := e.doc_id, positions := entrySlice p e })

/-- Fold a sequence of `add_token` calls over a fresh posting. -/
def addTokens (calls : List (Nat × Nat)) : PostingImpl :=
  calls.foldl (fun p c => addToken p c.1 c.2) newPosting

/-! ## Index (src/index/mod.rs) -/

/-- The indexing error cases (src/index/error.rs). -/
inductive IndexingError where
  | MappingFieldAlreadyExists (field : String)
  | MissingFieldMapping (field : String)
  deriving DecidableEq, Repr

/-- The index: the doc-id counter, the postings dictionary and the
field-to-tokenizer mappings.  The two Rust `HashMap`s are modelled as
association lists keyed by exact string equality (all accesses in the
source are key lookups, so the entry order is unobservable). -/
structure Index where
  doc_id : Nat
  postings : List (String × PostingImpl)
  mappings : List (String × WSTokenizer)
  deriving DecidableEq, Repr

/-- `Default::default()` for `Index`. -/
def emptyIndex : Index := { doc_id := 0, postings := [], mappings := [] }

/-- Association-list lookup (the `HashMap` indexing in the source). -/
def alistFind {β : Type} (l : List (String × β)) (key : String) : Option β :=
  match l.find? (fun kv => kv.1 = key) with
  | none => none
  | some kv => some kv.2

/-- `self.postings.entry(key).or_insert_with(new)` followed by
`posting.add_token(doc_id, position)`. -/
def postingsAddToken (ps : List (String × PostingImpl)) (key : String)
    (doc_id position : Nat) : List (String × PostingImpl) :=
  match alistFind ps key with
  | some _ => ps.map (fun kv => if kv.1 = key then (kv.1, addToken kv.2 doc_id position) else kv)
  | none => ps ++ [(key, addToken newPosting doc_id position)]

/-- The posting key `"field:term"`. -/
def postingKey (field term : String) : String :=
  field ++ ":" ++ term

/-- The inner token loop of `Index::add_doc` for one `(field, value)`
pair: tokenize the value and fold each token into the posting keyed by
`"field:term"`. -/
def indexFieldValue (postings : List (String × PostingImpl)) (tk : WSTokenizer)
    (doc_id : Nat) (field value : String) : List (String × PostingImpl) :=
  (wsTokenize tk value).foldl
    (fun ps tok => postingsAddToken ps (postingKey field tok.token) doc_id tok.position)
    postings

/-- The field loop of `Index::add_doc`.  A document is modelled as the
list of `(field, value)` pairs in the order `Document::fields()` yields
them (the source iterates a `HashMap`, so any order is a possible
behavior; values of one field keep insertion order). -/
def addDocFields (idx : Index) : List (String × String) → Option IndexingError × Index
  | [] => (none, { idx with doc_id := idx.doc_id + 1 })
  | (field, value) :: rest =>
    match alistFind idx.mappings field with
    | none => (some (IndexingError.MissingFieldMapping field), idx)
    | some tk =>
      addDocFields { idx with postings := indexFieldValue idx.postings tk idx.doc_id field value } rest

/-- `Index::add_doc`.  On success the doc-id counter advances by one; on
failure the error is returned and the counter is left unchanged (any
posting mutations from fields iterated before the failing one remain, as
in the source). -/
def addDoc (idx : Index) (doc : List (String × String)) : Option IndexingError × Index :=
  addDocFields idx doc

/-- `Index::set_mapping`. -/
def setMapping (idx : Index) (field : String) (tk : WSTokenizer) :
    Option IndexingError × Index :=
  match alistFind idx.mappings field with
  | some _ => (some (IndexingError.MappingFieldAlreadyExists field), idx)
  | none => (none, { idx with mappings := idx.mappings ++ [(field, tk)] })

/-- `Index::get_postings_list`: the posting for the exact key, or the
empty posting when absent (the `EmptyPosting` null object iterates like a
fresh `PostingImpl`). -/
def getPostingsList (idx : Index) (key : String) : PostingImpl :=
  match alistFind idx.postings key with
  | none => newPosting
  | some p => p

/-! ## TermQuery (src/search/query/term_query.rs)

A `SearchHit` carries only a doc id, so hit streams are modelled as
`List Nat`. -/

/-- `TermQuery::execute`: map `iter_docs` of the posting for
`"field:term"` to search hits. -/
def termExecute (idx : Index) (field term : String) : List Nat :=
  iterDocs (getPostingsList idx (postingKey field term))

/-! ## PhraseQuery (src/search/query/phrase_query.rs)

Positions are `u32`; the `fit` closure compares
`(*pos as i32 - *posx as i32).abs() as u8 <= self.slop`, which is
modelled with explicit two's-complement conversions (release-mode
wrapping semantics). -/

/-- `v as i32` for a `u32` value `v` (represented as a `Nat`). -/
def toI32 (n : Nat) : Int :=
  if n % 4294967296 < 2147483648 then (n % 4294967296 : Int)
  else (n % 4294967296 : Int) - 4294967296

/-- Wrap an integer into the `i32` range (two's complement). -/
def wrapI32 (z : Int) : Int :=
  (z + 2147483648) % 4294967296 - 2147483648

/-- `i32::abs` with release-mode wrapping (`abs(i32::MIN) = i32::MIN`). -/
def i32Abs (z : Int) : Int :=
  wrapI32 (if z < 0 then -z else z)

/-- `z as u8` for an `i32` value: the low byte of the two's-complement
representation. -/
def asU8 (z : Int) : Nat :=
  (z % 256).toNat

/-- The per-element test of the `fit` closure:
`pos != posx && (pos as i32 - posx as i32).abs() as u8 <= slop`. -/
def fitOne (pos posx slop : Nat) : Bool :=
  pos ≠ posx && asU8 (i32Abs (wrapI32 (toI32 pos - toI32 posx))) ≤ slop

/-- The `fit` closure: some already-selected position fits `posx`. -/
def fit (positions : List Nat) (posx : Nat) (slop : Nat) : Bool :=
  positions.any (fun pos => fitOne pos posx slop)

/-- The `past_all_positions` closure: `posx` is strictly beyond every
already-selected position. -/
def pastAll (positions : List Nat) (posx : Nat) : Bool :=
  positions.all (fun pos => pos < posx)

/-- The inner scan of one remaining term's positions: take the first
position that fits (pushing it), stop without a pick once past all
selected positions. -/
def scanTerm (slop : Nat) (w : List Nat) : List Nat → Option Nat
  | [] => none
  | posx :: rest =>
    if fit w posx slop then some posx
    else if pastAll w posx then none
    else scanTerm slop w rest

/-- One pass of the `for termx in terms_rest` loop: scan each remaining
term, append its pick to the working list, and report a match as soon as
the working list reaches `k` elements. -/
def passTerms (slop k : Nat) (w : List Nat) : List (List Nat) → List Nat × Bool
  | [] => (w, false)
  | t :: ts =>
    let w' :=
      match scanTerm slop w t with
      | none => w
      | some q => w ++ [q]
    if w'.length = k then (w', true) else passTerms slop k w' ts

/-- The `loop` around the passes: repeat until a match or until a full
pass after the first adds nothing.  `fuel` bounds the passes; the working
list grows on every continuing pass, so `k + 2` passes always suffice in
the reachable states (the list never exceeds `k` elements). -/
def phraseLoop (slop k : Nat) (rest : List (List Nat)) :
    Nat → List Nat → Bool → Bool
  | 0, _, _ => false
  | fuel + 1, w, checkedAll =>
    let res := passTerms slop k w rest
    if res.2 then true
    else if checkedAll ∧ res.1.length = w.length then false
    else phraseLoop slop k rest fuel res.1 true

/-- The `for pos1 in term1.positions` loop of `on_match`: each anchor
starts a fresh working list `[pos1]`; `checked_all` starts as
`terms_rest.len() == 1`. -/
def onMatchGo (slop k : Nat) (rest : List (List Nat)) : List Nat → Bool
  | [] => false
  | pos1 :: ps =>
    if phraseLoop slop k rest (k + 2) [pos1] (rest.length = 1) then true
    else onMatchGo slop k rest ps

/-- The `on_match` closure of `PhraseQuery::execute`, acting on the
positions slices of one conjunction hit.  (For an empty slice list the
source would panic on `terms[0]`; that case is unreachable because the
conjunction always yields one item per term.) -/
def onMatch (slices : List (List Nat)) (slop : Nat) : Bool :=
  match slices with
  | [] => false
  | t1 :: rest => onMatchGo slop slices.length rest t1

/-- `PhraseQuery::execute`: a conjunction over the `iter_docs_pos`
iterators of each term's posting, filtered through `on_match`. -/
def phraseExecute (idx : Index) (field : String) (terms : List String) (slop : Nat) :
    List Nat :=
  let postings := terms.map (fun term => iterDocsPos (getPostingsList idx (postingKey field term)))
  (conjStream (fun item => item.doc_id) postings).filterMap
    (fun hit => if onMatch (hit.2.map (fun item => item.positions)) slop then some hit.1 else none)

/-! ## BooleanQuery (src/search/query/boolean_query.rs)

`boolean_query.rs` (and `phrase_query.rs`) call the searcher's
`conjunction` and `disjunction` builders.  `conjunction` is
`step_on_matching_doc` (the `MatchingDocIterator` above, §4.5/§4.6 of the
spec); the `disjunction` builder itself is not part of the sources. -/

theorem dropHead_length_le (m : Nat) (l : List Nat) :
    (if l.head? = some m then l.tail else l).length ≤ l.length := by
  by_cases hc : l.head? = some m <;> simp [hc, List.length_tail]

theorem listsLen_dropHead_le (m : Nat) (ls : List (List Nat)) :
    listsLen (ls.map (fun l => if l.head? = some m then l.tail else l)) ≤ listsLen ls := by
  induction ls with
  | nil => simp [listsLen]
  | cons a as ih =>
    simp only [listsLen, List.map_cons, List.sum_cons] at ih ⊢
    have := dropHead_length_le m a
    omega

theorem listsLen_dropHead_lt (m : Nat) (ls : List (List Nat))
    (h : ∃ l ∈ ls, l.head? = some m) :
    listsLen (ls.map (fun l => if l.head? = some m then l.tail else l)) < listsLen ls := by
  induction ls with
  | nil => simp at h
  | cons a as ih =>
    rcases h with ⟨l, hl, hh⟩
    simp only [listsLen, List.map_cons, List.sum_cons]
    rcases List.mem_cons.mp hl with rfl | hmem
    · have h1 : (if l.head? = some m then l.tail else l).length < l.length := by
        rcases l with _ | ⟨x, xs⟩
        · simp at hh
        · simp [hh]
      have h2 := listsLen_dropHead_le m as
      simp only [listsLen] at h2
      omega
    · have h1 := ih ⟨l, hmem, hh⟩
      simp only [listsLen] at h1
      have h2 := dropHead_length_le m a
      omega

/-- Modelled from the spec: the `disjunction` builder is absent from the
sources (only its call sites are); §4.5 defines it as: keep the head of
each non-exhausted iterator, emit the minimum head, then advance exactly
the iterators whose head equals that minimum. -/
def disjunction (ls : List (List Nat)) : List Nat :=
  match hm : (ls.filterMap List.head?).min? with
  | none => []
  | some m =>
    m :: disjunction (ls.map (fun l => if l.head? = some m then l.tail else l))
  termination_by listsLen ls
  decreasing_by
    apply listsLen_dropHead_lt
    have hmem : m ∈ ls.filterMap List.head? :=
      List.min?_mem (fun a b => min_choice a b) hm
    rcases List.mem_filterMap.mp hmem with ⟨l, hl, hh⟩
    exact ⟨l, hl, hh⟩

/-- The `filter_map` closure of `BooleanQuery::execute`: walk the
conjunction hits with a single cursor over the must-not disjunction.
`cur` is `current_must_not_doc`, `rest` the unconsumed remainder of the
must-not iterator. -/
def mustNotWalk : Option Nat → List Nat → List (Nat × List Nat) → List Nat
  | _, _, [] => []
  | cur, rest, (d, _) :: hits =>
    match cur with
    | some m =>
      if m = d then mustNotWalk (some m) rest hits
      else if m < d then
        match advanceL (fun n => n) rest d with
        | (none, rest') => d :: mustNotWalk none rest' hits
        | (some (true, x), rest') => mustNotWalk (some x) rest' hits
        | (some (false, x), rest') => d :: mustNotWalk (some x) rest' hits
      else d :: mustNotWalk (some m) rest hits
    | none => d :: mustNotWalk none rest hits

/-- `BooleanQuery::execute`, taking the result streams of the `must` and
`must_not` sub-queries (each sub-query execute yields a stream of search
hits): conjunction over the must streams, filtered by a cursor over the
disjunction of the must-not streams (whose first element is pulled
eagerly). -/
def booleanExecute (must mustNot : List (List Nat)) : List Nat :=
  let conj := conjStream (fun n => n) must
  match disjunction mustNot with
  | [] => mustNotWalk none [] conj
  | m :: ms => mustNotWalk (some m) ms conj

/-! ## Specification-side predicates

These definitions follow the wording of the specification (they are the
properties the claims assert, to be compared with the behaviour of the
source-derived definitions above). -/

/-- The exact absolute distance between two token positions, as
unbounded integers. -/
def natDist (a b : Nat) : Nat := max a b - min a b

/-- Spec wording for the phrase working set: every chosen position beyond
the first is within `slop` of some previously chosen one. -/
def chainOkAux (slop : Nat) (seen : List Nat) : List Nat → Bool
  | [] => true
  | q :: rest => seen.any (fun w => natDist w q ≤ slop) && chainOkAux slop (q :: seen) rest

/-- `chainOk slop l`: in the order given by `l`, each position beyond the
first is within `slop` of some earlier one. -/
def chainOk (slop : Nat) : List Nat → Bool
  | [] => true
  | x :: rest => chainOkAux slop [x] rest

/-- All ways of inserting `x` into a list (helper for enumerating
permutations by structural recursion). -/
def insertAll (x : Nat) : List Nat → List (List Nat)
  | [] => [[x]]
  | y :: ys => (x :: y :: ys) :: (insertAll x ys).map (fun z => y :: z)

/-- All permutations of a list (insertion-based, structurally
recursive). -/
def permsOf : List Nat → List (List Nat)
  | [] => [[]]
  | x :: xs => ((permsOf xs).map (insertAll x)).flatten

/-- The property asserted by the claim for a phrase hit: the document
contains an unordered tuple of distinct positions — one drawn from each
term's positions slice — in which (in some order) every position beyond
the first is within `slop` of a previously chosen one.  `List.sections`
enumerates one choice from every slice. -/
def specDistinctTuple (slices : List (List Nat)) (slop : Nat) : Bool :=
  (List.sections slices).any
    (fun sel => decide sel.Nodup && (permsOf sel).any (fun ord => chainOk slop ord))

/-- The working sets actually reachable by the source's `on_match` loop:
start from an anchor position of the first term, and repeatedly append a
position `q` of one of the remaining terms such that the source's `fit`
test accepts `q` against the current working set.  (Nothing forces `q` to
be new, nor every remaining term to contribute.) -/
inductive PhraseChain (slop : Nat) (t1 : List Nat) (rest : List (List Nat)) : List Nat → Prop
  | anchor (p : Nat) : p ∈ t1 → PhraseChain slop t1 rest [p]
  | grow (w : List Nat) (q : Nat) (t : List Nat) :
      PhraseChain slop t1 rest w → t ∈ rest → q ∈ t → fit w q slop = true →
      PhraseChain slop t1 rest (w ++ [q])

/-- The postings state reached by `add_doc` after indexing a prefix of a
document's fields (used to describe where a failing `add_doc` leaves the
index). -/
def indexFieldsPrefix (mappings : List (String × WSTokenizer)) (doc_id : Nat)
    (postings : List (String × PostingImpl)) : List (String × String) →
    List (String × PostingImpl)
  | [] => postings
  | (field, value) :: rest =>
    match alistFind mappings field with
    | none => postings
    | some tk => indexFieldsPrefix mappings doc_id (indexFieldValue postings tk doc_id field value) rest

/-- The structural invariant of a posting built by a non-decreasing
sequence of `add_token` calls (§3 and §8.1–8.2 of the spec). -/
structure PostingInv (calls : List (Nat × Nat)) (P : PostingImpl) : Prop where
  sorted : (P.docs.map DocEntry.doc_id).Pairwise (· < ·)
  headOff : ∀ e, P.docs.head? = some e → e.positions_offset = 0
  chain : P.docs.Chain' (fun a b => b.positions_offset = a.positions_offset + a.freqs)
  sumFreqs : (P.docs.map DocEntry.freqs).sum = P.positions.length
  memIff : ∀ x, x ∈ P.docs.map DocEntry.doc_id ↔ x ∈ calls.map Prod.fst
  slices : ∀ e ∈ P.docs, entrySlice P e = (calls.filter (fun c => c.1 = e.doc_id)).map Prod.snd
  bounds : ∀ e ∈ P.docs, e.positions_offset + e.freqs ≤ P.positions.length
  lastId : (P.docs.getLast?).map DocEntry.doc_id = (calls.map Prod.fst).getLast?
  joinSlices : (P.docs.map (entrySlice P)).flatten = P.positions
  lastEnd : ∀ e, P.docs.getLast? = some e → e.positions_offset + e.freqs = P.positions.length

/-- An index with a single mapped field `field1` (whitespace tokenizer,
no filters), as built by `set_mapping`. -/
def cexIndex1 : Index :=
  (setMapping emptyIndex "field1" { filters := [] }).2

/-- The one-document index of the phrase counterexample: term `aaa` at
position 2, `bbb` at positions 1 and 3, `ccc` at position 10, indexed
from the field value by the whitespace tokenizer. -/
def cexPhraseIndex : Index :=
  (addDoc cexIndex1 [("field1", "bbb aaa bbb zzz zzz zzz zzz zzz zzz ccc")]).2

/-! ## Supporting lemmas -/

theorem disjunction_nil : disjunction [] = [] := by
  rw [disjunction]
  rfl

theorem applyFilters_position (fs : List TokenFilter) (t : Token) :
    (applyFilters fs t).position = t.position := by
  induction fs generalizing t with
  | nil => rfl
  | cons f fs ih =>
    simp only [applyFilters, List.foldl_cons] at ih ⊢
    rw [ih]
    cases f
    rfl

theorem tokenizeFrom_positions (fs : List TokenFilter) (p : Nat) (parts : List String) :
    (tokenizeFrom fs p parts).map Token.position = List.range' p parts.length := by
  induction parts generalizing p with
  | nil => rfl
  | cons part rest ih =>
    simp [tokenizeFrom, List.range'_succ, applyFilters_position, ih]

theorem tokenizeFrom_zipWith (fs : List TokenFilter) (p : Nat) (parts : List String) :
    tokenizeFrom fs p parts =
      List.zipWith (fun pos part => applyFilters fs { position := pos, token := part })
        (List.range' p parts.length) parts := by
  induction parts generalizing p with
  | nil => rfl
  | cons part rest ih =>
    simp [tokenizeFrom, List.range'_succ, ih]

/-! ## Claim theorems -/

/-- C10: constructed over an empty vector of input iterators, the
conjunction's `next()` returns `Some((0, []))` on every call — the init
scan leaves `max = 0` and `min = u32::MAX`, the matching loop body has
nothing to scan, and the state never changes, so the stream never reports
exhaustion (each of the first `n` calls emits `(0, [])`, for every `n`). -/
theorem conj_no_iterators_emits_zero_forever {α : Type} (getId : α → Nat) :
    conjNext getId ([] : List (List α)) = some ((0, []), [])
    ∧ ∀ n : Nat, conjStreamF getId n ([] : List (List α)) =
        List.replicate n ((0 : Nat), ([] : List α)) := by
  have h : conjNext getId ([] : List (List α)) = some ((0, []), []) := by
    simp [conjNext, pullHeads, UMAX, scanLoop]
  refine ⟨h, fun n => ?_⟩
  induction n with
  | zero => rfl
  | succ n ih => simp [conjStreamF, h, ih, List.replicate_succ]

/-- C4 (failing input): over the three strictly increasing iterators
`[1]`, `[2]`, `[2]` the conjunction emits `(2, [1, 2, 2])` — the init
scan's `min == max` fast path fires because `min` is only tracked for
items that did not increase `max` — although doc 2 is absent from the
first iterator, so the emitted doc-ids are not the intersection of the
underlying doc-id sets (which is empty) and the emitted tuple's slots do
not agree on the doc id. -/
theorem conj_emits_doc_outside_intersection :
    conjStream (fun n : Nat => n) [[1], [2], [2]] = [(2, [1, 2, 2])]
    ∧ (2 : Nat) ∉ ([1] : List Nat) := by
  constructor
  · rfl
  · decide

/-- C5 (failing input): a `BooleanQuery` whose three must sub-queries
yield the strictly ascending hit streams `[1]`, `[2]`, `[2]` (and with no
must-not clause) emits doc 2, although the intersection of the must
result sets is empty — the conjunction over the must iterators emits a
spurious hit (see the failing input of the conjunction claim). -/
theorem boolean_emits_doc_outside_intersection :
    booleanExecute [[1], [2], [2]] [] = [2]
    ∧ (2 : Nat) ∉ ([1] : List Nat) := by
  constructor
  · unfold booleanExecute
    rw [disjunction_nil]
    rfl
  · decide

/-- C3 (counterexample): the `fit` test accepts position 257 against a
working set containing position 1 with slop 1, although the exact
absolute distance is 256 — `(... ).abs() as u8` truncates the distance to
its low byte. -/
theorem fit_accepts_far_position_cex :
    fit [1] 257 1 = true ∧ (1 : Nat) ≠ 257 ∧ natDist 1 257 = 256 ∧ ¬ natDist 1 257 ≤ 1 := by
  decide

/-- C3 (amended): for positions below `2^31` (so that the `u32 → i32`
casts are exact), the fit test accepts `q` against `w` iff `w ≠ q` and
the absolute distance **reduced modulo 256** (the `as u8` cast of the
`i32` absolute difference) is at most the slop. -/
theorem fitOne_truncated_distance (pos posx slop : Nat)
    (h1 : pos < 2147483648) (h2 : posx < 2147483648) :
    fitOne pos posx slop = true ↔ pos ≠ posx ∧ natDist pos posx % 256 ≤ slop := by
  have hp : pos % 4294967296 = pos := Nat.mod_eq_of_lt (by omega)
  have hq : posx % 4294967296 = posx := Nat.mod_eq_of_lt (by omega)
  have ep : toI32 pos = (pos : Int) := by
    unfold toI32
    rw [hp, if_pos h1]
    omega
  have eq' : toI32 posx = (posx : Int) := by
    unfold toI32
    rw [hq, if_pos h2]
    omega
  have key : asU8 (i32Abs (wrapI32 (toI32 pos - toI32 posx))) = natDist pos posx % 256 := by
    rw [ep, eq']
    have hw : wrapI32 ((pos : Int) - (posx : Int)) = (pos : Int) - (posx : Int) := by
      unfold wrapI32
      omega
    rw [hw]
    unfold i32Abs wrapI32 asU8 natDist
    split_ifs with hneg <;> omega
  unfold fitOne
  rw [key]
  simp [Bool.and_eq_true, decide_eq_true_eq]

/-- C3 (witness): the amended characterization at positions 5 and 3 with
slop 1 (distance 2, rejected). -/
theorem fitOne_truncated_distance_w :
    fitOne 5 3 1 = true ↔ 5 ≠ 3 ∧ natDist 5 3 % 256 ≤ 1 :=
  fitOne_truncated_distance 5 3 1 (by decide) (by decide)

/-- C6: `advance(t)` returns `None` exactly when the items run out
without reaching one of doc-id `≥ t`; otherwise it returns the first
consumed item whose doc-id is `≥ t`, with a flag that is true iff that
doc-id equals `t`, having consumed precisely the items before it (the
remainder is everything after the returned item). -/
theorem advance_law {α : Type} (getId : α → Nat) (l : List α) (t : Nat) :
    ((advanceL getId l t).1 = none ↔ ∀ x ∈ l, getId x < t)
    ∧ ∀ f x, (advanceL getId l t).1 = some (f, x) →
        ∃ pre, l = pre ++ x :: (advanceL getId l t).2
          ∧ (∀ y ∈ pre, getId y < t) ∧ t ≤ getId x ∧ (f = true ↔ getId x = t) := by
  induction l with
  | nil =>
    refine ⟨by simp [advanceL], ?_⟩
    intro f x h
    simp [advanceL] at h
  | cons a as ih =>
    by_cases h1 : getId a = t
    · have hstep : advanceL getId (a :: as) t = (some (true, a), as) := by
        simp [advanceL, h1]
      rw [hstep]
      constructor
      · constructor
        · intro h
          simp at h
        · intro h
          have := h a (List.mem_cons_self a as)
          omega
      · intro f x h
        simp at h
        obtain ⟨hf, hx⟩ := h
        subst hf
        subst hx
        exact ⟨[], by simp, by simp, by omega, by simp [h1]⟩
    · by_cases h2 : getId a > t
      · have hstep : advanceL getId (a :: as) t = (some (false, a), as) := by
          simp [advanceL, h1, h2]
        rw [hstep]
        constructor
        · constructor
          · intro h
            simp at h
          · intro h
            have := h a (List.mem_cons_self a as)
            omega
        · intro f x h
          simp at h
          obtain ⟨hf, hx⟩ := h
          subst hf
          subst hx
          refine ⟨[], by simp, by simp, by omega, ?_⟩
          simp
          omega
      · have hstep : advanceL getId (a :: as) t = advanceL getId as t := by
          simp [advanceL, h1, h2]
        rw [hstep]
        constructor
        · rw [ih.1]
          constructor
          · intro h x hx
            rcases List.mem_cons.mp hx with rfl | hx
            · omega
            · exact h x hx
          · intro h x hx
            exact h x (List.mem_cons_of_mem a hx)
        · intro f x h
          rcases ih.2 f x h with ⟨pre, hpre, hlt, hge, hf⟩
          refine ⟨a :: pre, ?_, ?_, hge, hf⟩
          · conv_lhs => rw [hpre]
            simp
          · intro y hy
            rcases List.mem_cons.mp hy with rfl | hy
            · omega
            · exact hlt y hy

/-- C6 (witness): advancing the iterator `[1, 3, 5]` to target 4 returns
`(false, 5)` after consuming `[1, 3]`, leaving nothing. -/
theorem advance_law_w :
    ∃ pre, ([1, 3, 5] : List Nat) = pre ++ 5 :: (advanceL (fun n => n) [1, 3, 5] 4).2
      ∧ (∀ y ∈ pre, y < 4) ∧ 4 ≤ 5 ∧ (false = true ↔ 5 = 4) :=
  (advance_law (fun n => n) [1, 3, 5] 4).2 false 5 (by decide)

/-- C1 (counterexample): on an index mapping only `field1`, adding a
document whose field iteration yields `("field1", "aaa")` before the
unmapped `("field2", "bbb")` fails with `MissingFieldMapping("field2")`
but leaves a freshly created posting under `"field1:aaa"` — the missing
mapping is detected per field inside the indexing loop, not before any
posting mutation.  (`Document::fields` iterates a `HashMap`, so this
field order is a possible behaviour of every such two-field document.) -/
theorem add_doc_partial_postings_cex :
    (addDoc cexIndex1 [("field1", "aaa"), ("field2", "bbb")]).1 =
        some (IndexingError.MissingFieldMapping "field2")
    ∧ cexIndex1.postings = []
    ∧ (addDoc cexIndex1 [("field1", "aaa"), ("field2", "bbb")]).2.postings =
        [("field1:aaa", { docs := [{ doc_id := 0, freqs := 1, positions_offset := 0 }],
                          positions := [1] })] := by
  decide

/-- C1 (amended): when `add_doc` fails with `MissingFieldMapping(f)`,
`f` is the first field in the document's iteration order that has no
mapping, the doc-id counter and the mappings are unchanged, and the
postings are exactly those obtained by indexing the fields iterated
before `f` — fields from `f` onwards contribute nothing, but mutations
from earlier mapped fields remain (so a document whose unmapped field
comes first leaves the postings untouched). -/
theorem add_doc_missing_mapping_law (idx : Index) (doc : List (String × String)) (f : String)
    (h : (addDoc idx doc).1 = some (IndexingError.MissingFieldMapping f)) :
    ∃ pre v rest, doc = pre ++ (f, v) :: rest
      ∧ (∀ fv ∈ pre, alistFind idx.mappings fv.1 ≠ none)
      ∧ alistFind idx.mappings f = none
      ∧ (addDoc idx doc).2 =
          { idx with postings := indexFieldsPrefix idx.mappings idx.doc_id idx.postings pre } := by
  induction doc generalizing idx with
  | nil => simp [addDoc, addDocFields] at h
  | cons fv rest ih =>
    obtain ⟨field, value⟩ := fv
    rw [addDoc] at h ⊢
    rw [addDocFields] at h ⊢
    generalize hm : alistFind idx.mappings field = o at h ⊢
    cases o with
    | none =>
      simp at h
      subst h
      refine ⟨[], value, rest, by simp, by simp, hm, ?_⟩
      simp [indexFieldsPrefix]
    | some tk =>
      have h' : (addDoc { idx with
          postings := indexFieldValue idx.postings tk idx.doc_id field value } rest).1 =
          some (IndexingError.MissingFieldMapping f) := h
      rcases ih _ h' with ⟨pre, v, rest', hsplit, hmapped, hnone, hresult⟩
      refine ⟨(field, value) :: pre, v, rest', by simp [hsplit], ?_, hnone, ?_⟩
      · intro fv hfv
        rcases List.mem_cons.mp hfv with rfl | hfv
        · simp [hm]
        · exact hmapped fv hfv
      · simpa [indexFieldsPrefix, hm] using hresult

/-- C1 (witness): the amended law applied to the two-field document of
the counterexample. -/
theorem add_doc_missing_mapping_law_w :
    ∃ pre v rest,
      ([("field1", "aaa"), ("field2", "bbb")] : List (String × String)) =
          pre ++ ("field2", v) :: rest
      ∧ (∀ fv ∈ pre, alistFind cexIndex1.mappings fv.1 ≠ none)
      ∧ alistFind cexIndex1.mappings "field2" = none
      ∧ (addDoc cexIndex1 [("field1", "aaa"), ("field2", "bbb")]).2 =
          { cexIndex1 with
            postings := indexFieldsPrefix cexIndex1.mappings cexIndex1.doc_id
              cexIndex1.postings pre } :=
  add_doc_missing_mapping_law cexIndex1 [("field1", "aaa"), ("field2", "bbb")] "field2"
    (by decide)

theorem addDocFields_fail_state (fs : List (String × String)) :
    ∀ (idx : Index) (e : IndexingError) (idx' : Index),
      addDocFields idx fs = (some e, idx') →
      idx'.doc_id = idx.doc_id ∧ idx'.mappings = idx.mappings := by
  induction fs with
  | nil =>
    intro idx e idx' h
    simp [addDocFields] at h
  | cons fv rest ih =>
    intro idx e idx' h
    obtain ⟨field, value⟩ := fv
    rw [addDocFields] at h
    generalize hm : alistFind idx.mappings field = o at h
    cases o with
    | none =>
      simp at h
      simp [← h.2]
    | some tk =>
      have hr := ih { idx with
        postings := indexFieldValue idx.postings tk idx.doc_id field value } e idx' h
      simpa using hr

theorem addDocFields_ok_docId (fs : List (String × String)) :
    ∀ (idx idx' : Index), addDocFields idx fs = (none, idx') →
      idx'.doc_id = idx.doc_id + 1 := by
  induction fs with
  | nil =>
    intro idx idx' h
    simp [addDocFields] at h
    simp [← h]
  | cons fv rest ih =>
    intro idx idx' h
    obtain ⟨field, value⟩ := fv
    rw [addDocFields] at h
    generalize hm : alistFind idx.mappings field = o at h
    cases o with
    | none =>
      simp at h
    | some tk =>
      have hr := ih { idx with
        postings := indexFieldValue idx.postings tk idx.doc_id field value } idx' h
      simpa using hr

/-- C8: a failing `add_doc` leaves the doc-id counter unchanged, and the
next successful `add_doc` (from the state the failing call left behind)
assigns exactly the doc-id the failed call would have assigned: its
counter ends at `idx.doc_id + 1`, so the document it indexed received
`idx.doc_id`. -/
theorem add_doc_counter_unchanged_on_failure (idx : Index)
    (doc : List (String × String)) (e : IndexingError)
    (h : (addDoc idx doc).1 = some e) :
    (addDoc idx doc).2.doc_id = idx.doc_id
    ∧ ∀ doc2 : List (String × String),
        (addDoc (addDoc idx doc).2 doc2).1 = none →
        (addDoc (addDoc idx doc).2 doc2).2.doc_id = idx.doc_id + 1 := by
  have h1 : addDoc idx doc = (some e, (addDoc idx doc).2) := by
    rw [← h]
  have hfail := addDocFields_fail_state doc idx e (addDoc idx doc).2 h1
  refine ⟨hfail.1, ?_⟩
  intro doc2 h2
  have h3 : addDoc (addDoc idx doc).2 doc2 = (none, (addDoc (addDoc idx doc).2 doc2).2) := by
    rw [← h2]
  have := addDocFields_ok_docId doc2 (addDoc idx doc).2 (addDoc (addDoc idx doc).2 doc2).2 h3
  omega

/-- C8 (witness): on the single-mapping index, adding a document with
only the unmapped `field2` fails and keeps the counter at 0; the next
`add_doc` of a valid document succeeds and moves the counter to 1, i.e.
it was assigned doc-id 0. -/
theorem add_doc_counter_unchanged_on_failure_w :
    (addDoc cexIndex1 [("field2", "xxx")]).2.doc_id = cexIndex1.doc_id
    ∧ (addDoc (addDoc cexIndex1 [("field2", "xxx")]).2 [("field1", "aaa")]).2.doc_id =
        cexIndex1.doc_id + 1 :=
  ⟨(add_doc_counter_unchanged_on_failure cexIndex1 [("field2", "xxx")]
      (IndexingError.MissingFieldMapping "field2") (by decide)).1,
    (add_doc_counter_unchanged_on_failure cexIndex1 [("field2", "xxx")]
      (IndexingError.MissingFieldMapping "field2") (by decide)).2 [("field1", "aaa")] (by decide)⟩

/-- C9: for every input string and every registered filter list, the
whitespace tokenizer's `tokenize` emits one token per split, numbered
consecutively 1, 2, 3, … in emission order, each obtained by folding the
registered filter chain, in registration order, over the raw split. -/
theorem tokenize_numbering_and_filters (tk : WSTokenizer) (input : String) :
    wsTokenize tk input =
      List.zipWith (fun pos part => applyFilters tk.filters { position := pos, token := part })
        (List.range' 1 (splitWhitespace input).length) (splitWhitespace input)
    ∧ (wsTokenize tk input).map Token.position =
        List.range' 1 (splitWhitespace input).length := by
  exact ⟨tokenizeFrom_zipWith tk.filters 1 (splitWhitespace input),
    tokenizeFrom_positions tk.filters 1 (splitWhitespace input)⟩


theorem bumpLast_concat (l : List DocEntry) (e : DocEntry) :
    bumpLast (l ++ [e]) = l ++ [{ e with freqs := e.freqs + 1 }] := by
  induction l with
  | nil => rfl
  | cons a as ih =>
    cases as with
    | nil => rfl
    | cons b bs =>
      simp only [List.cons_append, List.append_eq, bumpLast] at ih ⊢
      rw [ih]

theorem bumpLast_append_pair (init : List DocEntry) (a e : DocEntry) :
    bumpLast (init ++ [a, e]) = init ++ [a, { e with freqs := e.freqs + 1 }] := by
  have h := bumpLast_concat (init ++ [a]) e
  simpa using h

theorem slice_snoc_stable (l : List Nat) (p o f : Nat) (h : o + f ≤ l.length) :
    ((l ++ [p]).drop o).take f = (l.drop o).take f := by
  rw [List.drop_append_of_le_length (by omega)]
  rw [List.take_append_of_le_length (by simp; omega)]

theorem slice_snoc_extend (l : List Nat) (p o f : Nat) (h : o + f = l.length) :
    ((l ++ [p]).drop o).take (f + 1) = (l.drop o).take f ++ [p] := by
  rw [List.drop_append_of_le_length (by omega)]
  have hlen : (l.drop o).length = f := by simp; omega
  rw [List.take_of_length_le (by simp [hlen])]
  rw [List.take_of_length_le (by omega)]

theorem le_of_mem_chainLe (l : List Nat) (d : Nat) (h : List.Chain' (· ≤ ·) (l ++ [d])) :
    ∀ x ∈ l, x ≤ d := by
  have hp : List.Pairwise (· ≤ ·) (l ++ [d]) := List.chain'_iff_pairwise.mp h
  intro x hx
  exact (List.pairwise_append.mp hp).2.2 x hx d (by simp)

theorem postingInv_nil : PostingInv [] newPosting := by
  constructor <;> simp [newPosting, entrySlice]

theorem postingInv_step (calls : List (Nat × Nat)) (P : PostingImpl) (d p : Nat)
    (inv : PostingInv calls P) (hle : ∀ x ∈ calls.map Prod.fst, x ≤ d) :
    PostingInv (calls ++ [(d, p)]) (addToken P d p) := by
  obtain ⟨docs, poss⟩ := P
  rcases List.eq_nil_or_concat docs with hnil | ⟨init, last, hsplit⟩
  all_goals try rw [List.concat_eq_append] at hsplit
  · subst hnil
    have hcalls : calls = [] := by
      have hL := inv.lastId
      simp at hL
      exact List.getLast?_eq_none_iff.mp (Option.map_eq_none'.mp hL.symm)
    have hposs : poss = [] := by
      have hs := inv.sumFreqs
      simp at hs
      exact List.length_eq_zero.mp hs.symm
    subst hcalls
    subst hposs
    constructor <;> simp [addToken, bumpLast, entrySlice]
  · subst hsplit
    have hlastmem : last.doc_id ∈ calls.map Prod.fst := by
      have hL := inv.lastId
      simp only [List.getLast?_concat, Option.map_some'] at hL
      exact List.mem_of_mem_getLast? hL.symm
    have hlastle : last.doc_id ≤ d := hle _ hlastmem
    have hlastEnd : last.positions_offset + last.freqs = poss.length :=
      inv.lastEnd last (by rw [List.getLast?_concat])
    have hinitlt : ∀ e ∈ init, e.doc_id < last.doc_id := by
      have hp := inv.sorted
      simp only [List.map_append] at hp
      intro e he
      exact (List.pairwise_append.mp hp).2.2 e.doc_id (List.mem_map_of_mem _ he)
        last.doc_id (by simp)
    by_cases hd : last.doc_id = d
    · have haddtok : addToken ⟨init ++ [last], poss⟩ d p =
          ⟨init ++ [{ last with freqs := last.freqs + 1 }], poss ++ [p]⟩ := by
        unfold addToken
        simp only [List.getLast?_concat, hd]
        simp [bumpLast_concat]
        exact hd
      rw [haddtok]
      have hchainOld := List.chain'_append.mp inv.chain
      constructor
      · simpa using inv.sorted
      · intro e he
        cases init with
        | nil =>
          simp at he
          subst he
          exact inv.headOff last (by simp)
        | cons e0 tl =>
          simp at he
          subst he
          exact inv.headOff e0 (by simp)
      · refine List.chain'_append.mpr ⟨hchainOld.1, by simp, ?_⟩
        intro x hx y hy
        simp at hy
        subst hy
        exact hchainOld.2.2 x hx last (by simp)
      · have hs := inv.sumFreqs
        simp only [List.map_append, List.sum_append] at hs ⊢
        simp at hs ⊢
        omega
      · intro x
        have hm := inv.memIff x
        simp only [List.map_append] at hm ⊢
        constructor
        · intro h
          exact List.mem_append_left _ (hm.mp (by simpa using h))
        · intro h
          rcases List.mem_append.mp h with h | h
          · simpa using hm.mpr h
          · simp at h
            subst h
            simp [← hd]
      · intro e he
        rcases List.mem_append.mp he with he | he
        · have hb := inv.bounds e (List.mem_append_left _ he)
          have hslice := inv.slices e (List.mem_append_left _ he)
          have hne : ¬ (d = e.doc_id) := by
            have := hinitlt e he
            omega
          simp only [entrySlice] at hslice ⊢
          rw [slice_snoc_stable _ _ _ _ hb, hslice, List.filter_append]
          simp [hne]
        · simp at he
          subst he
          have hslice := inv.slices last (List.mem_append_right _ (by simp))
          simp only [entrySlice] at hslice ⊢
          rw [slice_snoc_extend _ _ _ _ hlastEnd, hslice, List.filter_append]
          simp [hd]
      · intro e he
        rcases List.mem_append.mp he with he | he
        · have hb : e.positions_offset + e.freqs ≤ poss.length :=
            inv.bounds e (List.mem_append_left _ he)
          show e.positions_offset + e.freqs ≤ (poss ++ [p]).length
          simp
          omega
        · simp at he
          subst he
          show last.positions_offset + (last.freqs + 1) ≤ (poss ++ [p]).length
          simp
          omega
      · show (((init ++ [{ last with freqs := last.freqs + 1 }]).getLast?).map DocEntry.doc_id) =
            ((calls ++ [(d, p)]).map Prod.fst).getLast?
        simp [List.getLast?_concat, hd]
      · have hj := inv.joinSlices
        have hstab : ∀ e ∈ init,
            entrySlice ⟨init ++ [{ last with freqs := last.freqs + 1 }], poss ++ [p]⟩ e =
            entrySlice ⟨init ++ [last], poss⟩ e := by
          intro e he
          exact slice_snoc_stable _ _ _ _ (inv.bounds e (List.mem_append_left _ he))
        have hext : entrySlice ⟨init ++ [{ last with freqs := last.freqs + 1 }], poss ++ [p]⟩
              { last with freqs := last.freqs + 1 } =
            entrySlice ⟨init ++ [last], poss⟩ last ++ [p] :=
          slice_snoc_extend _ _ _ _ hlastEnd
        show ((init ++ [{ last with freqs := last.freqs + 1 }]).map
            (entrySlice ⟨init ++ [{ last with freqs := last.freqs + 1 }], poss ++ [p]⟩)).flatten =
          poss ++ [p]
        rw [List.map_append, List.flatten_append, List.map_congr_left hstab]
        rw [List.map_append, List.flatten_append] at hj
        simp only [List.map_cons, List.map_nil, List.flatten_cons, List.flatten_nil,
          List.append_nil] at hj ⊢
        rw [hext, ← List.append_assoc, hj]
      · intro e he
        simp only [List.getLast?_concat] at he
        simp at he
        subst he
        simp
        omega
    · have hlastlt : last.doc_id < d := lt_of_le_of_ne hlastle hd
      have hallLt : ∀ x ∈ (init ++ [last]).map DocEntry.doc_id, x < d := by
        intro x hx
        simp only [List.map_append] at hx
        rcases List.mem_append.mp hx with hx | hx
        · rcases List.mem_map.mp hx with ⟨e, he, rfl⟩
          exact lt_trans (hinitlt e he) hlastlt
        · simp at hx
          subst hx
          exact hlastlt
      have hdnotin : ∀ c ∈ calls, ¬ (c.1 = d) := by
        intro c hc hc1
        have hmem : d ∈ calls.map Prod.fst := List.mem_map.mpr ⟨c, hc, hc1⟩
        have := (inv.memIff d).mpr hmem
        exact absurd (hallLt d this) (lt_irrefl d)
      have haddtok : addToken ⟨init ++ [last], poss⟩ d p =
          ⟨(init ++ [last]) ++ [(⟨d, 1, poss.length⟩ : DocEntry)], poss ++ [p]⟩ := by
        unfold addToken
        simp only [List.getLast?_concat]
        simp [hd, bumpLast_append_pair]
      rw [haddtok]
      have hfilterNil : calls.filter (fun c => c.1 = d) = [] := by
        rw [List.filter_eq_nil_iff]
        intro c hc
        simpa using hdnotin c hc
      constructor
      · show ((((init ++ [last]) ++ [(⟨d, 1, poss.length⟩ : DocEntry)]).map DocEntry.doc_id)).Pairwise (· < ·)
        rw [List.map_append]
        refine List.pairwise_append.mpr ⟨inv.sorted, by simp, ?_⟩
        intro x hx y hy
        simp at hy
        subst hy
        exact hallLt x hx
      · intro e he
        cases hin : (init ++ [last]).head? with
        | none =>
          rw [List.head?_eq_none_iff] at hin
          simp at hin
        | some h0 =>
          rw [List.head?_append, hin] at he
          simp [Option.or] at he
          subst he
          exact inv.headOff h0 hin
      · refine List.chain'_append.mpr ⟨inv.chain, by simp, ?_⟩
        intro x hx y hy
        simp only [List.getLast?_concat] at hx
        simp at hx hy
        subst hx
        subst hy
        show poss.length = last.positions_offset + last.freqs
        omega
      · have hs := inv.sumFreqs
        show (((init ++ [last]) ++ [(⟨d, 1, poss.length⟩ : DocEntry)]).map DocEntry.freqs).sum =
          (poss ++ [p]).length
        rw [List.map_append, List.sum_append]
        have hs' : ((init ++ [last]).map DocEntry.freqs).sum = poss.length := hs
        rw [List.map_append, List.sum_append] at hs'
        simp at hs' ⊢
        omega
      · intro x
        have hm : x ∈ (init ++ [last]).map DocEntry.doc_id ↔ x ∈ calls.map Prod.fst :=
          inv.memIff x
        show x ∈ ((init ++ [last]) ++ [(⟨d, 1, poss.length⟩ : DocEntry)]).map DocEntry.doc_id ↔
          x ∈ (calls ++ [(d, p)]).map Prod.fst
        simp only [List.map_append, List.mem_append] at hm ⊢
        constructor
        · rintro ((h | h) | h)
          · exact Or.inl (hm.mp (Or.inl h))
          · exact Or.inl (hm.mp (Or.inr h))
          · simp at h
            subst h
            simp
        · rintro (h | h)
          · exact Or.inl (hm.mpr h)
          · simp at h
            subst h
            simp
      · intro e he
        rcases List.mem_append.mp he with he | he
        · have hb := inv.bounds e he
          have hslice := inv.slices e he
          have hne : ¬ (d = e.doc_id) := by
            have := hallLt e.doc_id (List.mem_map_of_mem _ he)
            omega
          simp only [entrySlice] at hslice ⊢
          rw [slice_snoc_stable _ _ _ _ hb, hslice, List.filter_append]
          simp [hne]
        · simp at he
          subst he
          simp only [entrySlice]
          show (((poss ++ [p]).drop poss.length).take 1) =
            ((calls ++ [(d, p)]).filter (fun c => c.1 = d)).map Prod.snd
          rw [List.drop_left, List.filter_append, hfilterNil]
          simp
      · intro e he
        rcases List.mem_append.mp he with he | he
        · have hb : e.positions_offset + e.freqs ≤ poss.length := inv.bounds e he
          show e.positions_offset + e.freqs ≤ (poss ++ [p]).length
          simp
          omega
        · simp at he
          subst he
          show poss.length + 1 ≤ (poss ++ [p]).length
          simp
      · show ((((init ++ [last]) ++ [(⟨d, 1, poss.length⟩ : DocEntry)]).getLast?).map DocEntry.doc_id) =
            ((calls ++ [(d, p)]).map Prod.fst).getLast?
        simp [List.getLast?_concat]
      · have hj := inv.joinSlices
        have hstab : ∀ e ∈ init ++ [last],
            entrySlice ⟨(init ++ [last]) ++ [(⟨d, 1, poss.length⟩ : DocEntry)], poss ++ [p]⟩ e =
            entrySlice ⟨init ++ [last], poss⟩ e := by
          intro e he
          exact slice_snoc_stable _ _ _ _ (inv.bounds e he)
        have hnew : entrySlice ⟨(init ++ [last]) ++ [(⟨d, 1, poss.length⟩ : DocEntry)], poss ++ [p]⟩
            (⟨d, 1, poss.length⟩ : DocEntry) = [p] := by
          simp only [entrySlice]
          show (((poss ++ [p]).drop poss.length).take 1) = [p]
          rw [List.drop_left]
          rfl
        show (((init ++ [last]) ++ [(⟨d, 1, poss.length⟩ : DocEntry)]).map
            (entrySlice ⟨(init ++ [last]) ++ [(⟨d, 1, poss.length⟩ : DocEntry)], poss ++ [p]⟩)).flatten =
          poss ++ [p]
        rw [List.map_append, List.flatten_append, List.map_congr_left hstab]
        simp only [List.map_cons, List.map_nil, List.flatten_cons, List.flatten_nil,
          List.append_nil]
        rw [hnew, hj]
      · intro e he
        simp only [List.getLast?_concat] at he
        simp at he
        subst he
        show poss.length + 1 = (poss ++ [p]).length
        simp


theorem postingInv_addTokens (calls : List (Nat × Nat))
    (h : List.Chain' (· ≤ ·) (calls.map Prod.fst)) :
    PostingInv calls (addTokens calls) := by
  induction calls using List.reverseRecOn with
  | nil => exact postingInv_nil
  | append_singleton cs c ih =>
    obtain ⟨d, p⟩ := c
    rw [List.map_append] at h
    have hchain : List.Chain' (· ≤ ·) (cs.map Prod.fst) := (List.chain'_append.mp h).1
    have hle : ∀ x ∈ cs.map Prod.fst, x ≤ d := le_of_mem_chainLe _ _ (by simpa using h)
    have hstep := postingInv_step cs (addTokens cs) d p (ih hchain) hle
    rw [addTokens, List.foldl_append]
    exact hstep

/-- C7: for every non-decreasing sequence of `add_token(d, p)` calls on a
fresh posting, the result satisfies the posting structural invariant:
strictly increasing doc-ids, offset 0 for the first entry and
offset-chaining for the rest, total frequency equal to the positions
buffer length, exactly the called doc-ids present, per-doc positions
slices equal to the positions inserted for that doc in insertion order,
and the concatenation of the slices in doc order reconstructing the raw
positions buffer. -/
theorem posting_invariants (calls : List (Nat × Nat))
    (h : List.Chain' (· ≤ ·) (calls.map Prod.fst)) :
    (iterDocs (addTokens calls)).Pairwise (· < ·)
    ∧ (∀ e, (addTokens calls).docs.head? = some e → e.positions_offset = 0)
    ∧ List.Chain' (fun a b => b.positions_offset = a.positions_offset + a.freqs)
        (addTokens calls).docs
    ∧ ((addTokens calls).docs.map DocEntry.freqs).sum = (addTokens calls).positions.length
    ∧ (∀ x, x ∈ iterDocs (addTokens calls) ↔ x ∈ calls.map Prod.fst)
    ∧ (∀ item ∈ iterDocsPos (addTokens calls),
        item.positions = (calls.filter (fun c => c.1 = item.doc_id)).map Prod.snd)
    ∧ ((iterDocsPos (addTokens calls)).map DocIdAndPosItem.positions).flatten =
        (addTokens calls).positions := by
  have inv := postingInv_addTokens calls h
  refine ⟨inv.sorted, inv.headOff, inv.chain, inv.sumFreqs, inv.memIff, ?_, ?_⟩
  · intro item hitem
    rcases List.mem_map.mp hitem with ⟨e, he, rfl⟩
    simpa using inv.slices e he
  · have hmm : (iterDocsPos (addTokens calls)).map DocIdAndPosItem.positions =
        (addTokens calls).docs.map (entrySlice (addTokens calls)) := by
      unfold iterDocsPos
      rw [List.map_map]
      rfl
    rw [hmm, inv.joinSlices]


/-- C7 (witness): the invariant at the call sequence of the source's
`should_add_tokens` test. -/
theorem posting_invariants_w :
    (iterDocs (addTokens [(1, 42), (1, 45), (3, 2)])).Pairwise (· < ·)
    ∧ (∀ e, (addTokens [(1, 42), (1, 45), (3, 2)]).docs.head? = some e →
        e.positions_offset = 0)
    ∧ List.Chain' (fun a b => b.positions_offset = a.positions_offset + a.freqs)
        (addTokens [(1, 42), (1, 45), (3, 2)]).docs
    ∧ ((addTokens [(1, 42), (1, 45), (3, 2)]).docs.map DocEntry.freqs).sum =
        (addTokens [(1, 42), (1, 45), (3, 2)]).positions.length
    ∧ (∀ x, x ∈ iterDocs (addTokens [(1, 42), (1, 45), (3, 2)]) ↔
        x ∈ ([(1, 42), (1, 45), (3, 2)] : List (Nat × Nat)).map Prod.fst)
    ∧ (∀ item ∈ iterDocsPos (addTokens [(1, 42), (1, 45), (3, 2)]),
        item.positions =
          (([(1, 42), (1, 45), (3, 2)] : List (Nat × Nat)).filter
            (fun c => c.1 = item.doc_id)).map Prod.snd)
    ∧ ((iterDocsPos (addTokens [(1, 42), (1, 45), (3, 2)])).map
        DocIdAndPosItem.positions).flatten =
        (addTokens [(1, 42), (1, 45), (3, 2)]).positions :=
  posting_invariants [(1, 42), (1, 45), (3, 2)] (by simp [List.chain'_cons])

theorem scanTerm_spec (slop : Nat) (w : List Nat) (t : List Nat) (q : Nat)
    (h : scanTerm slop w t = some q) : q ∈ t ∧ fit w q slop = true := by
  induction t with
  | nil => simp [scanTerm] at h
  | cons posx rest ih =>
    rw [scanTerm] at h
    by_cases h1 : fit w posx slop = true
    · rw [if_pos h1] at h
      simp at h
      subst h
      exact ⟨by simp, h1⟩
    · rw [if_neg h1] at h
      by_cases h2 : pastAll w posx = true
      · rw [if_pos h2] at h
        simp at h
      · rw [if_neg h2] at h
        rcases ih h with ⟨hq, hf⟩
        exact ⟨List.mem_cons_of_mem _ hq, hf⟩

theorem passTerms_sound (slop k : Nat) (t1 : List Nat) (rest : List (List Nat))
    (ts : List (List Nat)) (w : List Nat)
    (hsub : ∀ t ∈ ts, t ∈ rest) (hw : PhraseChain slop t1 rest w) :
    PhraseChain slop t1 rest (passTerms slop k w ts).1
    ∧ ((passTerms slop k w ts).2 = true → (passTerms slop k w ts).1.length = k) := by
  induction ts generalizing w with
  | nil =>
    rw [passTerms]
    exact ⟨hw, by intro h; simp at h⟩
  | cons t ts ih =>
    rw [passTerms]
    cases hscan : scanTerm slop w t with
    | none =>
      by_cases hlen : w.length = k
      · simp only [hscan, hlen, if_pos]
        exact ⟨hw, fun _ => by simp [hlen]⟩
      · simp only [hscan, hlen, if_neg, if_false]
        exact ih w (fun t ht => hsub t (List.mem_cons_of_mem _ ht)) hw
    | some q =>
      rcases scanTerm_spec slop w t q hscan with ⟨hq, hf⟩
      have hw' : PhraseChain slop t1 rest (w ++ [q]) :=
        PhraseChain.grow w q t hw (hsub t (List.mem_cons_self _ _)) hq hf
      by_cases hlen : (w ++ [q]).length = k
      · simp only [hscan, hlen, if_pos]
        exact ⟨hw', fun _ => by simp [hlen]⟩
      · simp only [hscan, hlen, if_neg, if_false]
        exact ih (w ++ [q]) (fun t ht => hsub t (List.mem_cons_of_mem _ ht)) hw'

theorem phraseLoop_sound (slop k : Nat) (t1 : List Nat) (rest : List (List Nat))
    (fuel : Nat) :
    ∀ (w : List Nat) (c : Bool), PhraseChain slop t1 rest w →
      phraseLoop slop k rest fuel w c = true →
      ∃ wf, PhraseChain slop t1 rest wf ∧ wf.length = k := by
  induction fuel with
  | zero =>
    intro w c hw h
    simp [phraseLoop] at h
  | succ fuel ih =>
    intro w c hw h
    rw [phraseLoop] at h
    rcases passTerms_sound slop k t1 rest rest w (fun t ht => ht) hw with ⟨hchain, hmatch⟩
    by_cases hres : (passTerms slop k w rest).2 = true
    · exact ⟨(passTerms slop k w rest).1, hchain, hmatch hres⟩
    · rw [if_neg (by simpa using hres)] at h
      by_cases hstop : (c = true ∧ (passTerms slop k w rest).1.length = w.length)
      · rw [if_pos hstop] at h
        simp at h
      · rw [if_neg hstop] at h
        exact ih (passTerms slop k w rest).1 true hchain h

theorem onMatchGo_sound (slop k : Nat) (t1 : List Nat) (rest : List (List Nat))
    (ps : List Nat) (hsub : ∀ x ∈ ps, x ∈ t1)
    (h : onMatchGo slop k rest ps = true) :
    ∃ wf, PhraseChain slop t1 rest wf ∧ wf.length = k := by
  induction ps with
  | nil => simp [onMatchGo] at h
  | cons p ps ih =>
    rw [onMatchGo] at h
    by_cases h1 : phraseLoop slop k rest (k + 2) [p] (decide (rest.length = 1)) = true
    · exact phraseLoop_sound slop k t1 rest (k + 2) [p] _
        (PhraseChain.anchor p (hsub p (List.mem_cons_self _ _))) h1
    · rw [if_neg (by simpa using h1)] at h
      exact ih (fun x hx => hsub x (List.mem_cons_of_mem _ hx)) h

theorem onMatch_sound (slices : List (List Nat)) (slop : Nat)
    (h : onMatch slices slop = true) :
    ∃ t1 rest, slices = t1 :: rest
      ∧ ∃ wf, PhraseChain slop t1 rest wf ∧ wf.length = slices.length := by
  cases slices with
  | nil => simp [onMatch] at h
  | cons t1 rest =>
    rw [onMatch] at h
    exact ⟨t1, rest, rfl, onMatchGo_sound slop (t1 :: rest).length t1 rest t1
      (fun x hx => hx) h⟩
/-- C2 (amended): whenever `PhraseQuery::execute` emits `SearchHit(d)`,
some conjunction hit `(d, [p1, …, pk])` was accepted by `on_match`, and
the working list then reached exactly `k` positions drawn from the
slices: the first from `p1` and each later one from the slice of some
remaining term, each later position `q` fitting some earlier chosen `w`
(the source's `fit`: `w ≠ q` and byte-truncated `|w − q| ≤ slop`).  The
chosen positions need not be pairwise distinct and need not include one
position from every term's slice. -/
theorem phrase_hit_has_reachable_chain (idx : Index) (field : String)
    (terms : List String) (slop : Nat) (d : Nat)
    (hd : d ∈ phraseExecute idx field terms slop) :
    ∃ items, (d, items) ∈ conjStream (fun item => item.doc_id)
        (terms.map (fun term => iterDocsPos (getPostingsList idx (postingKey field term))))
      ∧ ∃ t1 rest wf, items.map (fun item => item.positions) = t1 :: rest
          ∧ PhraseChain slop t1 rest wf ∧ wf.length = (t1 :: rest).length := by
  unfold phraseExecute at hd
  rcases List.mem_filterMap.mp hd with ⟨hit, hmem, hcond⟩
  obtain ⟨hdoc, items⟩ := hit
  by_cases hb : onMatch (items.map (fun item => item.positions)) slop = true
  · rw [if_pos hb] at hcond
    simp at hcond
    subst hcond
    rcases onMatch_sound (items.map (fun item => item.positions)) slop hb
      with ⟨t1, rest, hsl, wf, hchain, hlen⟩
    exact ⟨items, hmem, t1, rest, wf, hsl, hchain, by rw [hlen, hsl]⟩
  · rw [if_neg (by simpa using hb)] at hcond
    simp at hcond


/-- C2 (counterexample): on the document whose slices for the phrase
terms `[aaa, bbb, ccc]` are `[2]`, `[1, 3]`, `[10]`, the phrase query
with slop 1 emits `SearchHit(0)` — the matcher collects the working set
`[2, 1, 1]`, re-picking position 1 because `fit` only requires the
fitting neighbour to differ from the candidate — although the document
contains no tuple of three distinct positions, one per term, chained
within slop 1 (position 10 is far from all others). -/
theorem phrase_no_distinct_tuple_cex :
    phraseExecute cexPhraseIndex "field1" ["aaa", "bbb", "ccc"] 1 = [0]
    ∧ (iterDocsPos (getPostingsList cexPhraseIndex (postingKey "field1" "aaa"))).map
        DocIdAndPosItem.positions = [[2]]
    ∧ (iterDocsPos (getPostingsList cexPhraseIndex (postingKey "field1" "bbb"))).map
        DocIdAndPosItem.positions = [[1, 3]]
    ∧ (iterDocsPos (getPostingsList cexPhraseIndex (postingKey "field1" "ccc"))).map
        DocIdAndPosItem.positions = [[10]]
    ∧ specDistinctTuple [[2], [1, 3], [10]] 1 = false := by
  decide

/-- C2 (witness): the amended law applied to the counterexample's hit. -/
theorem phrase_hit_has_reachable_chain_w :
    ∃ items, ((0 : Nat), items) ∈ conjStream (fun item => item.doc_id)
        ((["aaa", "bbb", "ccc"] : List String).map
          (fun term => iterDocsPos (getPostingsList cexPhraseIndex (postingKey "field1" term))))
      ∧ ∃ t1 rest wf, items.map (fun item => item.positions) = t1 :: rest
          ∧ PhraseChain 1 t1 rest wf ∧ wf.length = (t1 :: rest).length :=
  phrase_hit_has_reachable_chain cexPhraseIndex "field1" ["aaa", "bbb", "ccc"] 1 0 (by decide)

end Iryfful
